import Mathlib

/-!
Verification of the ResourceMerger merge engine (src/lib.rs) against its
natural-language specification.

The Rust code is shallowly embedded: pack sources are modelled by the file
entries they yield (a remote source is resolved to archive bytes by the fetch
collaborator before reaching the engine), file contents are opaque byte lists,
and the merge table is an association list with explicit insertion.
-/

namespace ResourceMerger

/-- File contents: an opaque list of byte values. -/
abbrev Bytes := List Nat

/-- Association-list lookup by string key, first match wins.  Models both
`HashMap::get` (keys unique by construction) and `ZipArchive::by_name`. -/
def assocLookup {α : Type} : List (String × α) → String → Option α
  | [], _ => none
  | e :: rest, k => if e.1 = k then some e.2 else assocLookup rest k

/-! ## Path sanitizer (`sanitize_zip_entry_name`, lib.rs lines 639-656) -/

/-- `name.replace('\\', "/")`: convert backslashes to forward slashes. -/
def replaceBackslash (name : List Char) : List Char :=
  name.map fun c => if c = '\\' then '/' else c

/-- Rust `str::split('/')` on a character list: splits on every slash and keeps
empty pieces (the empty input yields one empty piece). -/
def splitOnSlash : List Char → List (List Char)
  | [] => [[]]
  | c :: rest =>
    if c = '/' then [] :: splitOnSlash rest
    else
      match splitOnSlash rest with
      | [] => [[c]]
      | h :: t => (c :: h) :: t

/-- Core of `sanitize_zip_entry_name` on the character-list form of the input:
convert backslashes, reject absolute paths, drop empty segments, reject `..`
segments and empty results, rejoin with `/`. -/
def sanitizeChars (name : List Char) : Option (List Char) :=
  let n := replaceBackslash name
  if n.head? = some '/' ∨ n.head? = some '\\' then none
  else
    let comps := (splitOnSlash n).filter fun s => !s.isEmpty
    if ['.', '.'] ∈ comps then none
    else if comps.isEmpty then none
    else some (List.intercalate ['/'] comps)

/-- `sanitize_zip_entry_name`: normalize a zip entry name into a safe
forward-slash form, or reject it (lib.rs lines 639-656). -/
def sanitize_zip_entry_name (s : String) : Option String :=
  (sanitizeChars s.data).map fun l => String.mk l

/-! ## Input collection into the merge table (lib.rs lines 567-633) -/

/-- A pack source, as seen by the merge engine.  Directory and zip-file
sources carry their display path (used by `make_readme`) and the file entries
they yield; a remote `Url` source is resolved to archive bytes by the fetch
collaborator before collection, so it is represented by `zipBytes`. -/
inductive PackInput where
  | dir (path : String) (entries : List (String × Bytes))
  | zipFile (path : String) (entries : List (String × Bytes))
  | zipBytes (entries : List (String × Bytes))
deriving DecidableEq

/-- The merge table: sanitized path -> content, keys unique. -/
abbrev FileMap := List (String × Bytes)

/-- `HashMap::insert`: replace any existing entry for the key. -/
def insertFile (m : FileMap) (k : String) (v : Bytes) : FileMap :=
  (m.filter fun p => !decide (p.1 = k)) ++ [(k, v)]

/-- `ZipFile::is_dir`: a zip entry is a directory marker when its name ends
with a slash. -/
def isDirEntryName (n : String) : Bool := n.data.getLast? = some '/'

/-- `read_zipbytes_into_map` / `read_zipfile_into_map` (lib.rs lines 594-633):
skip directory markers, sanitize each name (dropping unsafe entries), and
insert into the shared map. -/
def read_zipbytes_into_map (entries : List (String × Bytes)) (m : FileMap) : FileMap :=
  entries.foldl
    (fun acc e =>
      if isDirEntryName e.1 then acc
      else
        match sanitize_zip_entry_name e.1 with
        | none => acc
        | some nm => insertFile acc nm e.2)
    m

/-- `read_dir_into_map` (lib.rs lines 567-592): every regular file of the walk
is inserted under its slash-joined relative path, without sanitization. -/
def read_dir_into_map (entries : List (String × Bytes)) (m : FileMap) : FileMap :=
  entries.foldl (fun acc e => insertFile acc e.1 e.2) m

/-- One iteration of the collection loop in `merge_packs_to_bytes_with_options`
(lib.rs lines 207-267): route each source to its reader. -/
def readPackIntoMap (m : FileMap) (p : PackInput) : FileMap :=
  match p with
  | .dir _ es => read_dir_into_map es m
  | .zipFile _ es => read_zipbytes_into_map es m
  | .zipBytes es => read_zipbytes_into_map es m

/-- The merge table after collecting all sources in input order. -/
def buildFilesMap (packs : List PackInput) : FileMap :=
  packs.foldl readPackIntoMap []

/-- The `(path, content)` pairs a source contributes to the merge table, in
order: directory entries verbatim, zip entries after directory-marker
skipping and sanitization. -/
def processedEntries (p : PackInput) : List (String × Bytes) :=
  match p with
  | .dir _ es => es
  | .zipFile _ es => es.filterMap fun e =>
      if isDirEntryName e.1 then none
      else (sanitize_zip_entry_name e.1).map fun nm => (nm, e.2)
  | .zipBytes es => es.filterMap fun e =>
      if isDirEntryName e.1 then none
      else (sanitize_zip_entry_name e.1).map fun nm => (nm, e.2)

/-- The content of the last entry for `k` in `es`, if any: formalizes the
spec phrase "the content from the last source (in input order) that contained
that path", with in-source entry order also respected. -/
def lastContentIn (es : List (String × Bytes)) (k : String) : Option Bytes :=
  match es with
  | [] => none
  | e :: rest =>
    match lastContentIn rest k with
    | some v => some v
    | none => if e.1 = k then some e.2 else none

/-- The content for path `k` contributed by the last source containing it. -/
def lastContentOf (packs : List PackInput) (k : String) : Option Bytes :=
  lastContentIn ((packs.map processedEntries).flatten) k

/-! ## Merge options (lib.rs lines 26-109) -/

/-- `OverwritePolicy`: how to handle multiple inputs containing the same
internal path. -/
inductive OverwritePolicy where
  | lastWins
  | firstWins
  | errorIfConflict
  | skipIfExists
deriving DecidableEq

/-- `SupportedFormatsPolicy`: how to synthesize the supported_formats array. -/
inductive SupportedFormatsPolicy where
  | oneToHighest
  | lowestToHighest
  | oneToLatest
deriving DecidableEq

/-- `MergeOptions`: configuration controlling merge behavior. -/
structure MergeOptions where
  overwrite : OverwritePolicy
  dry_run : Bool
  buffer_size : Nat
  atomic : Bool
  preserve_timestamps : Bool
  pack_format_override : Option Nat
  supported_formats_policy : SupportedFormatsPolicy
  description_override : Option String
  tolerate_missing_inputs : Bool
deriving DecidableEq

/-- `MergeOptions::default` (lib.rs lines 95-109). -/
def MergeOptions.default : MergeOptions where
  overwrite := .lastWins
  dry_run := false
  buffer_size := 32 * 1024
  atomic := true
  preserve_timestamps := false
  pack_format_override := none
  supported_formats_policy := .oneToHighest
  description_override := none
  tolerate_missing_inputs := false

/-! ## Metadata synthesis (lib.rs lines 307-361) -/

/-- Final pack_format: the override if present, otherwise the highest format
found across inputs, otherwise 1 (lib.rs lines 307-314). -/
def final_pack_fmt (pack_format_override : Option Nat) (found_formats : List Nat) : Nat :=
  match pack_format_override with
  | some ov => ov
  | none =>
    if found_formats.isEmpty then 1
    else (found_formats.max?).getD 1

/-- The synthesized supported_formats endpoints per policy
(lib.rs lines 322-361). -/
def supported_formats (policy : SupportedFormatsPolicy) (found_formats : List Nat)
    (final_fmt : Nat) : List Nat :=
  match policy with
  | .oneToHighest =>
    let high := if found_formats.isEmpty then final_fmt
                else (found_formats.max?).getD final_fmt
    if high ≤ 1 then [1] else [1, high]
  | .lowestToHighest =>
    if found_formats.isEmpty then [final_fmt]
    else
      let low := (found_formats.min?).getD final_fmt
      let high := (found_formats.max?).getD final_fmt
      if low = high then [low] else [low, high]
  | .oneToLatest =>
    let high := if found_formats.isEmpty then final_fmt
                else (found_formats.max?).getD final_fmt
    if high ≤ 1 then [1] else [1, high]

/-! ## Generated output files (lib.rs lines 878-914) -/

/-- Modelled from the spec: the crate version string baked in at build time
(`CARGO_PKG_VERSION`); the build manifest is not under src/, so the version is
modelled as an opaque constant. -/
def crate_version : String := "0.1.0"

/-- Modelled from the spec: the embedded default icon asset
(`assets/default-pack-64.png`) is not under src/; its bytes are modelled as an
opaque constant (here the PNG signature). -/
def default_pack_png_bytes : Bytes := [137, 80, 78, 71, 13, 10, 26, 10]

/-- `make_readme` (lib.rs lines 889-914): the generated provenance document
listing each input source in order. -/
def make_readme (packs : List PackInput) : String :=
  let header := "This resource pack was generated by resource_merger.\n\nInputs used (in order, first -> last):\n"
  let body := packs.foldl
    (fun acc p =>
      acc ++ match p with
        | .dir path _ => "- Dir: " ++ path ++ "\n"
        | .zipFile path _ => "- ZipFile: " ++ path ++ "\n"
        | .zipBytes _ => "- ZipBytes: <in-memory>\n")
    ""
  header ++ body ++ "\nGenerated with resource_merger " ++ crate_version

/-! ## Output writer (lib.rs lines 284-430) -/

/-- The byte-order comparison Rust uses for `String` (`keys.sort()`), on the
character-list form; for Unicode strings UTF-8 byte order coincides with
code-point order. -/
def charListLe : List Char → List Char → Bool
  | [], _ => true
  | _ :: _, [] => false
  | a :: as, b :: bs => if a < b then true else if b < a then false else charListLe as bs

/-- String comparison used when sorting output keys. -/
def strLe (a b : String) : Bool := charListLe a.data b.data

/-- Insert into a sorted list (helper of the sort modelling `keys.sort()`). -/
def insertSorted (x : String) : List String → List String
  | [] => [x]
  | y :: ys => if strLe x y then x :: y :: ys else y :: insertSorted x ys

/-- Sorting of the emitted keys (`keys.sort()`, lib.rs line 299): since keys
are distinct, any comparison sort yields this unique ascending permutation. -/
def sortStrings : List String → List String
  | [] => []
  | x :: xs => insertSorted x (sortStrings xs)

/-- The keys of the merge table. -/
def mapKeys (m : FileMap) : List String := m.map fun p => p.1

/-- The emitted map keys: everything except the reserved generated names
(lib.rs lines 292-298). -/
def nonSpecialKeys (m : FileMap) : List String :=
  (mapKeys m).filter fun k =>
    decide (k ≠ "pack.mcmeta") && decide (k ≠ "pack.png") && decide (k ≠ "README.md")

/-- The emitted map keys in sorted order. -/
def sortedKeys (m : FileMap) : List String := sortStrings (nonSpecialKeys m)

/-- Content of one output archive entry.  Map entries and the embedded icon
are raw bytes; the generated provenance document is its text; the synthesized
metadata document (`make_pack_mcmeta`) is kept opaque since no claim concerns
its rendered bytes (its numeric synthesis is modelled by `final_pack_fmt` and
`supported_formats`). -/
inductive OutData where
  | data (b : Bytes)
  | text (s : String)
  | metaDoc
deriving DecidableEq

/-- The output archive produced by `merge_packs_to_bytes_with_options`
(lib.rs lines 284-404), as an ordered list of named entries: the sorted
non-reserved map entries, then the generated `pack.mcmeta`, the embedded
default `pack.png`, and—only when no input supplied one—the generated
`README.md`. -/
def outputEntries (packs : List PackInput) (opts : MergeOptions) : List (String × OutData) :=
  let files := buildFilesMap packs
  ((sortedKeys files).map fun k => (k, OutData.data ((assocLookup files k).getD [])))
  ++ [("pack.mcmeta", OutData.metaDoc), ("pack.png", OutData.data default_pack_png_bytes)]
  ++ (match assocLookup files "README.md" with
      | none => [("README.md", OutData.text (make_readme packs))]
      | some _ => [])

/-- The names of the output archive entries, in emission order. -/
def outputEntryNames (packs : List PackInput) (opts : MergeOptions) : List String :=
  (outputEntries packs opts).map fun e => e.1

/-- `merge_packs_to_bytes_with_options` (lib.rs lines 192-404).  In the pure
fragment (no network fetch, no malformed archives) collection cannot fail, so
the result is always `ok`; note that `opts.overwrite` is never consulted by
the source. -/
def merge_packs_to_bytes_with_options (packs : List PackInput) (opts : MergeOptions) :
    Except String (List (String × OutData)) :=
  .ok (outputEntries packs opts)

/-- `merge_packs_to_bytes` (lib.rs lines 187-190): wrapper using default
options. -/
def merge_packs_to_bytes (packs : List PackInput) :
    Except String (List (String × OutData)) :=
  merge_packs_to_bytes_with_options packs MergeOptions.default

/-- A filesystem effect of writing the merge result. -/
inductive FsAction where
  | write (path : String) (content : List (String × OutData))
  | rename (src : String) (dst : String)
deriving DecidableEq

/-- `merge_packs_to_file_with_options` (lib.rs lines 414-430) as its trace of
filesystem actions: a dry run performs the scan and writes nothing; otherwise
the bytes are written directly to the destination with `std::fs::write` —
the source stages nothing and performs no rename, regardless of
`opts.atomic`. -/
def merge_packs_to_file_with_options (packs : List PackInput) (out : String)
    (opts : MergeOptions) : Except String (List FsAction) :=
  if opts.dry_run then
    .ok []
  else
    match merge_packs_to_bytes_with_options packs opts with
    | .error e => .error e
    | .ok entries => .ok [FsAction.write out entries]

/-! ## Metadata inspection (lib.rs lines 660-817)

The inspector reads a candidate `pack.mcmeta` entry and parses it as JSON
(`serde_json::from_str`).  The JSON value space (`serde_json::Value`) is
embedded as `Json`; a file's content is viewed at this stage as `Option Json`
(`none` when the entry is not valid UTF-8 JSON).  Format numbers in the claims
are naturals, so numbers are modelled at `u64` granularity. -/

/-- `serde_json::Value`. -/
inductive Json where
  | null
  | bool (b : Bool)
  | num (n : Nat)
  | str (s : String)
  | arr (items : List Json)
  | obj (fields : List (String × Json))

/-- `Value::get(key)`: field lookup on an object, `None` otherwise. -/
def Json.get (j : Json) (key : String) : Option Json :=
  match j with
  | .obj fields => assocLookup fields key
  | _ => none

/-- `Value::as_u64`. -/
def Json.as_u64 : Json → Option Nat
  | .num n => some n
  | _ => none

/-- `Value::as_str`. -/
def Json.as_str : Json → Option String
  | .str s => some s
  | _ => none

/-- Whether the value is an object (`Value::as_object().is_some()`). -/
def Json.isObj : Json → Bool
  | .obj _ => true
  | _ => false

/-- Rust `str::parse::<u32>`: optional leading `+`, one or more digits, value
within `u32` range. -/
def parseU32 (s : String) : Option Nat :=
  let ds := match s.data with
    | '+' :: rest => rest
    | l => l
  if ds.isEmpty then none
  else if ds.all (fun c => c.isDigit) then
    let n := ds.foldl (fun acc c => acc * 10 + (c.toNat - 48)) 0
    if n < 4294967296 then some n else none
  else none

/-- The `try_from_value` helper of `extract_pack_format_from_mcmeta`: accept a
number, or a numeric string. -/
def try_from_value (val : Json) : Option Nat :=
  match val.as_u64 with
  | some n => some n
  | none =>
    match val.as_str with
    | some s => parseU32 s
    | none => none

/-- `extract_pack_format_from_mcmeta` (lib.rs lines 755-817) on the parsed
JSON value: `pack.pack_format` with `pack.max_format` and
`pack.supported_formats.max_inclusive`, falling back to top-level
`pack_format` / `max_format`; no pack_format means no finding. -/
def extract_pack_format_from_mcmeta (v : Json) : Option (Nat × Option Nat) :=
  let inPack : Option Nat × Option Nat :=
    match v.get "pack" with
    | some pack =>
      let pf := match pack.get "pack_format" with
        | some fmt => try_from_value fmt
        | none => none
      let mf0 := match pack.get "max_format" with
        | some mf => try_from_value mf
        | none => none
      let mf := match pack.get "supported_formats" with
        | some sf =>
          if sf.isObj then
            match sf.get "max_inclusive" with
            | some mi =>
              match try_from_value mi with
              | some n => some n
              | none => mf0
            | none => mf0
          else mf0
        | none => mf0
      (pf, mf)
    | none => (none, none)
  let pf := match inPack.1 with
    | some pf => some pf
    | none =>
      match v.get "pack_format" with
      | some fmt => try_from_value fmt
      | none => none
  let mf := match inPack.2 with
    | some mf => some mf
    | none =>
      match v.get "max_format" with
      | some m => try_from_value m
      | none => none
  match pf with
  | some p => some (p, mf)
  | none => none

/-- `extract_overlays_from_mcmeta` (lib.rs lines 711-718): the `overlays`
section of the parsed document, if any. -/
def extract_overlays_from_mcmeta (v : Json) : Option Json := v.get "overlays"

/-- `peek_pack_format_from_zipbytes` (lib.rs lines 660-676): look up the entry
named exactly `pack.mcmeta` (`ZipArchive::by_name`), read and parse it, and
extract formats and overlays.  The archive is viewed as its named entries with
their parse results. -/
def peek_pack_format_from_zipbytes (entries : List (String × Option Json)) :
    Option (Nat × Option Nat × Option Json) :=
  match assocLookup entries "pack.mcmeta" with
  | some (some j) =>
    match extract_pack_format_from_mcmeta j with
    | some (pf, mf) => some (pf, mf, extract_overlays_from_mcmeta j)
    | none => none
  | some none => none
  | none => none

/-- `peek_pack_format_from_zipfile` (lib.rs lines 678-695): identical logic to
the bytes variant once the archive is open. -/
def peek_pack_format_from_zipfile (entries : List (String × Option Json)) :
    Option (Nat × Option Nat × Option Json) :=
  peek_pack_format_from_zipbytes entries

/-- `peek_pack_format_from_dir` (lib.rs lines 697-708): read the root file
`pack.mcmeta` of the directory (whose root files are viewed as named parse
results) and extract formats and overlays. -/
def peek_pack_format_from_dir (rootFiles : List (String × Option Json)) :
    Option (Nat × Option Nat × Option Json) :=
  match assocLookup rootFiles "pack.mcmeta" with
  | some (some j) =>
    match extract_pack_format_from_mcmeta j with
    | some (pf, mf) => some (pf, mf, extract_overlays_from_mcmeta j)
    | none => none
  | some none => none
  | none => none

/-- A well-formed metadata descriptor declaring pack_format 7, used as a
concrete inspection input. -/
def sampleMcmeta : Json := .obj [("pack", .obj [("pack_format", .num 7)])]

/-- Two archive sources that both contain `a.txt`, with different contents. -/
def conflictPacks : List PackInput :=
  [PackInput.zipBytes [("a.txt", [1])], PackInput.zipBytes [("a.txt", [2])]]

/-- One archive source supplying its own `README.md` and `pack.png`. -/
def packsWithReadme : List PackInput :=
  [PackInput.zipBytes [("README.md", [82]), ("pack.png", [1])]]

/-- Insert a whole entry list into the merge table, in order. -/
def insertAll (m : FileMap) (es : List (String × Bytes)) : FileMap :=
  es.foldl (fun acc e => insertFile acc e.1 e.2) m

/-! ## Lemmas about the merge table -/

theorem assocLookup_append {α : Type} (m₁ m₂ : List (String × α)) (k : String) :
    assocLookup (m₁ ++ m₂) k =
      match assocLookup m₁ k with
      | some v => some v
      | none => assocLookup m₂ k := by
  induction m₁ with
  | nil => simp [assocLookup]
  | cons e es ih =>
    by_cases h : e.1 = k <;> simp [assocLookup, h, ih]

theorem assocLookup_filter_ne (m : FileMap) {k k' : String} (h : k' ≠ k) :
    assocLookup (m.filter fun p => !decide (p.1 = k)) k' = assocLookup m k' := by
  induction m with
  | nil => simp [assocLookup]
  | cons e es ih =>
    by_cases he : e.1 = k
    · have hkk : k ≠ k' := Ne.symm h
      simp [assocLookup, List.filter_cons, he, hkk, ih]
    · by_cases he' : e.1 = k' <;> simp [assocLookup, List.filter_cons, he, he', h, ih]

theorem assocLookup_filter_self (m : FileMap) (k : String) :
    assocLookup (m.filter fun p => !decide (p.1 = k)) k = none := by
  induction m with
  | nil => simp [assocLookup]
  | cons e es ih =>
    by_cases he : e.1 = k <;> simp [assocLookup, List.filter_cons, he, ih]

theorem assocLookup_insertFile (m : FileMap) (k : String) (v : Bytes) (k' : String) :
    assocLookup (insertFile m k v) k' = if k = k' then some v else assocLookup m k' := by
  by_cases h : k = k'
  · subst h
    rw [insertFile, assocLookup_append, assocLookup_filter_self]
    simp [assocLookup]
  · have h' : k' ≠ k := fun hk => h hk.symm
    rw [insertFile, assocLookup_append, assocLookup_filter_ne m h']
    cases hl : assocLookup m k' <;> simp [assocLookup, h, hl]

theorem insertAll_append (m : FileMap) (es₁ es₂ : List (String × Bytes)) :
    insertAll m (es₁ ++ es₂) = insertAll (insertAll m es₁) es₂ := by
  simp [insertAll, List.foldl_append]

theorem assocLookup_insertAll (es : List (String × Bytes)) :
    ∀ (m : FileMap) (k : String),
      assocLookup (insertAll m es) k =
        match lastContentIn es k with
        | some v => some v
        | none => assocLookup m k := by
  induction es with
  | nil => intro m k; simp [insertAll, lastContentIn]
  | cons e es ih =>
    intro m k
    have step : insertAll m (e :: es) = insertAll (insertFile m e.1 e.2) es := rfl
    rw [step, ih]
    cases hrest : lastContentIn es k with
    | some v => simp [lastContentIn, hrest]
    | none =>
      rw [assocLookup_insertFile]
      by_cases h : e.1 = k
      · simp [lastContentIn, hrest, h]
      · have h2 : ¬ (k = e.1) := fun hk => h hk.symm
        simp [lastContentIn, hrest, h, h2]

theorem read_dir_eq_insertAll (es : List (String × Bytes)) (m : FileMap) :
    read_dir_into_map es m = insertAll m es := rfl

theorem read_zipbytes_eq_insertAll (es : List (String × Bytes)) :
    ∀ m : FileMap,
      read_zipbytes_into_map es m =
        insertAll m (es.filterMap fun e =>
          if isDirEntryName e.1 then none
          else (sanitize_zip_entry_name e.1).map fun nm => (nm, e.2)) := by
  induction es with
  | nil => intro m; rfl
  | cons e es ih =>
    intro m
    by_cases hd : isDirEntryName e.1
    · have h1 : read_zipbytes_into_map (e :: es) m = read_zipbytes_into_map es m := by
        simp [read_zipbytes_into_map, hd]
      rw [h1, ih m, List.filterMap_cons]
      simp [hd]
    · cases hs : sanitize_zip_entry_name e.1 with
      | none =>
        have h1 : read_zipbytes_into_map (e :: es) m = read_zipbytes_into_map es m := by
          simp [read_zipbytes_into_map, hd, hs]
        rw [h1, ih m, List.filterMap_cons]
        simp [hd, hs]
      | some nm =>
        have h1 : read_zipbytes_into_map (e :: es) m
            = read_zipbytes_into_map es (insertFile m nm e.2) := by
          simp [read_zipbytes_into_map, hd, hs]
        rw [h1, ih (insertFile m nm e.2), List.filterMap_cons]
        simp [hd, hs, insertAll]

theorem readPack_eq_insertAll (m : FileMap) (p : PackInput) :
    readPackIntoMap m p = insertAll m (processedEntries p) := by
  cases p with
  | dir path es => rfl
  | zipFile path es => exact read_zipbytes_eq_insertAll es m
  | zipBytes es => exact read_zipbytes_eq_insertAll es m

theorem foldl_readPack_eq_insertAll (packs : List PackInput) :
    ∀ m : FileMap,
      packs.foldl readPackIntoMap m = insertAll m ((packs.map processedEntries).flatten) := by
  induction packs with
  | nil => intro m; rfl
  | cons p ps ih =>
    intro m
    rw [List.foldl_cons, ih, readPack_eq_insertAll, List.map_cons, List.flatten_cons,
      insertAll_append]

theorem assocLookup_eq_none_iff {α : Type} (m : List (String × α)) (k : String) :
    assocLookup m k = none ↔ ∀ e ∈ m, e.1 ≠ k := by
  induction m with
  | nil => simp [assocLookup]
  | cons e es ih =>
    by_cases he : e.1 = k <;> simp [assocLookup, he, ih]

theorem assocLookup_keyed {α : Type} (ks : List String) (f : String → α) (k : String) :
    assocLookup (ks.map fun x => (x, f x)) k = if k ∈ ks then some (f k) else none := by
  induction ks with
  | nil => simp [assocLookup]
  | cons x xs ih =>
    by_cases hx : x = k
    · subst hx; simp [assocLookup, ih]
    · have hx' : ¬ (k = x) := fun hk => hx hk.symm
      simp [assocLookup, hx, hx', ih]

/-! ## Lemmas about key uniqueness and the output sort -/

theorem mapKeys_filter (m : FileMap) (k : String) :
    mapKeys (m.filter fun p => !decide (p.1 = k))
      = (mapKeys m).filter fun s => !decide (s = k) := by
  induction m with
  | nil => rfl
  | cons e es ih =>
    by_cases he : e.1 = k <;> simp [mapKeys, List.filter_cons, he, ih] <;>
      simpa [mapKeys] using ih

theorem nodup_mapKeys_insertFile (m : FileMap) (k : String) (v : Bytes)
    (h : (mapKeys m).Nodup) : (mapKeys (insertFile m k v)).Nodup := by
  have hkeys : mapKeys (insertFile m k v)
      = ((mapKeys m).filter fun s => !decide (s = k)) ++ [k] := by
    simp [insertFile, mapKeys, List.map_append]
    simpa [mapKeys] using mapKeys_filter m k
  rw [hkeys]
  refine List.Nodup.append (h.filter _) (List.nodup_singleton k) ?_
  intro a ha hb
  have := List.of_mem_filter ha
  simp at this hb
  exact this hb

theorem nodup_mapKeys_insertAll (es : List (String × Bytes)) :
    ∀ m : FileMap, (mapKeys m).Nodup → (mapKeys (insertAll m es)).Nodup := by
  induction es with
  | nil => intro m h; exact h
  | cons e es ih =>
    intro m h
    exact ih (insertFile m e.1 e.2) (nodup_mapKeys_insertFile m e.1 e.2 h)

theorem nodup_mapKeys_buildFilesMap (packs : List PackInput) :
    (mapKeys (buildFilesMap packs)).Nodup := by
  rw [buildFilesMap, foldl_readPack_eq_insertAll]
  exact nodup_mapKeys_insertAll _ [] (by simp [mapKeys])

theorem charListLe_total (a : List Char) : ∀ b, charListLe a b = true ∨ charListLe b a = true := by
  induction a with
  | nil => intro b; left; rfl
  | cons c cs ih =>
    intro b
    cases b with
    | nil => right; rfl
    | cons d ds =>
      rcases lt_trichotomy c d with h | h | h
      · left; simp [charListLe, h]
      · subst h
        rcases ih ds with h2 | h2
        · left; simpa [charListLe, lt_irrefl] using h2
        · right; simpa [charListLe, lt_irrefl] using h2
      · right; simp [charListLe, h]

theorem charListLe_trans (a : List Char) :
    ∀ b c, charListLe a b = true → charListLe b c = true → charListLe a c = true := by
  induction a with
  | nil => intro b c _ _; rfl
  | cons x xs ih =>
    intro b c hab hbc
    cases b with
    | nil => simp [charListLe] at hab
    | cons y ys =>
      cases c with
      | nil => simp [charListLe] at hbc
      | cons z zs =>
        rcases lt_trichotomy x y with hxy | hxy | hxy
        · rcases lt_trichotomy y z with hyz | hyz | hyz
          · simp [charListLe, lt_trans hxy hyz]
          · subst hyz; simp [charListLe, hxy]
          · simp [charListLe, hyz, asymm hyz] at hbc
        · subst hxy
          rcases lt_trichotomy x z with hyz | hyz | hyz
          · simp [charListLe, hyz]
          · subst hyz
            simp [charListLe, lt_irrefl] at hab hbc ⊢
            exact ih ys zs hab hbc
          · simp [charListLe, hyz, asymm hyz] at hbc
        · simp [charListLe, hxy, asymm hxy] at hab

theorem charListLe_antisymm (a : List Char) :
    ∀ b, charListLe a b = true → charListLe b a = true → a = b := by
  induction a with
  | nil =>
    intro b _ hba
    cases b with
    | nil => rfl
    | cons d ds => simp [charListLe] at hba
  | cons x xs ih =>
    intro b hab hba
    cases b with
    | nil => simp [charListLe] at hab
    | cons y ys =>
      rcases lt_trichotomy x y with h | h | h
      · simp [charListLe, h, asymm h] at hba
      · subst h
        simp [charListLe, lt_irrefl] at hab hba
        rw [ih ys hab hba]
      · simp [charListLe, h, asymm h] at hab

theorem strLe_total (a b : String) : strLe a b = true ∨ strLe b a = true :=
  charListLe_total a.data b.data

theorem strLe_trans {a b c : String} (h₁ : strLe a b = true) (h₂ : strLe b c = true) :
    strLe a c = true :=
  charListLe_trans a.data b.data c.data h₁ h₂

theorem strLe_antisymm {a b : String} (h₁ : strLe a b = true) (h₂ : strLe b a = true) :
    a = b := by
  have hd : a.data = b.data := charListLe_antisymm a.data b.data h₁ h₂
  cases a with
  | mk da =>
    cases b with
    | mk db =>
      simp at hd
      rw [hd]

theorem perm_insertSorted (x : String) (l : List String) :
    (insertSorted x l).Perm (x :: l) := by
  induction l with
  | nil => exact List.Perm.refl _
  | cons y ys ih =>
    by_cases h : strLe x y
    · simp [insertSorted, h]
    · rw [insertSorted, if_neg h]
      exact (List.Perm.cons y ih).trans (List.Perm.swap x y ys)

theorem perm_sortStrings (l : List String) : (sortStrings l).Perm l := by
  induction l with
  | nil => exact List.Perm.refl _
  | cons x xs ih =>
    exact ((perm_insertSorted x (sortStrings xs)).trans (List.Perm.cons x ih))

theorem pairwise_insertSorted (x : String) (l : List String)
    (h : l.Pairwise fun a b => strLe a b = true) :
    (insertSorted x l).Pairwise fun a b => strLe a b = true := by
  induction l with
  | nil => simp [insertSorted]
  | cons y ys ih =>
    rw [List.pairwise_cons] at h
    by_cases hxy : strLe x y
    · rw [insertSorted, if_pos hxy, List.pairwise_cons]
      constructor
      · intro z hz
        rcases List.mem_cons.mp hz with hz | hz
        · subst hz; exact hxy
        · exact strLe_trans hxy (h.1 z hz)
      · rw [List.pairwise_cons]; exact h
    · rw [insertSorted, if_neg hxy, List.pairwise_cons]
      constructor
      · intro z hz
        rcases List.mem_cons.mp ((perm_insertSorted x ys).mem_iff.mp hz) with hz | hz
        · subst hz
          rcases strLe_total z y with ht | ht
          · exact absurd ht hxy
          · exact ht
        · exact h.1 z hz
      · exact ih h.2

theorem pairwise_sortStrings (l : List String) :
    (sortStrings l).Pairwise fun a b => strLe a b = true := by
  induction l with
  | nil => simp [sortStrings]
  | cons x xs ih => exact pairwise_insertSorted x (sortStrings xs) ih

theorem strict_pairwise_sortStrings (l : List String) (h : l.Nodup) :
    (sortStrings l).Pairwise fun a b => strLe a b = true ∧ a ≠ b := by
  have hnd : (sortStrings l).Nodup := (perm_sortStrings l).nodup_iff.mpr h
  exact (pairwise_sortStrings l).and hnd

theorem mem_mapKeys_iff (m : FileMap) (k : String) :
    k ∈ mapKeys m ↔ ¬ (assocLookup m k = none) := by
  rw [assocLookup_eq_none_iff]
  simp [mapKeys, List.mem_map, not_forall]

theorem mem_sortedKeys_iff (m : FileMap) (k : String) :
    k ∈ sortedKeys m ↔ k ∈ nonSpecialKeys m :=
  (perm_sortStrings (nonSpecialKeys m)).mem_iff

/-! ## Core merge-table correctness lemma -/

theorem lookup_buildFilesMap (packs : List PackInput) (path : String) :
    assocLookup (buildFilesMap packs) path = lastContentOf packs path := by
  rw [buildFilesMap, foldl_readPack_eq_insertAll, assocLookup_insertAll]
  unfold lastContentOf
  cases lastContentIn ((packs.map processedEntries).flatten) path <;> simp [assocLookup]

theorem lookup_outputEntries (packs : List PackInput) (opts : MergeOptions) (path : String)
    (hm : path ≠ "pack.mcmeta") (hp : path ≠ "pack.png") (hr : path ≠ "README.md") :
    assocLookup (outputEntries packs opts) path
      = (assocLookup (buildFilesMap packs) path).map OutData.data := by
  unfold outputEntries
  rw [assocLookup_append, assocLookup_append,
    assocLookup_keyed (sortedKeys (buildFilesMap packs))
      (fun k => OutData.data ((assocLookup (buildFilesMap packs) k).getD [])) path]
  have hmem : path ∈ sortedKeys (buildFilesMap packs)
      ↔ ¬ (assocLookup (buildFilesMap packs) path = none) := by
    rw [mem_sortedKeys_iff, nonSpecialKeys, List.mem_filter,
      ← mem_mapKeys_iff (buildFilesMap packs) path]
    simp [hm, hp, hr]
  cases hlk : assocLookup (buildFilesMap packs) path with
  | some v =>
    have : path ∈ sortedKeys (buildFilesMap packs) := hmem.mpr (by simp [hlk])
    simp [this, hlk]
  | none =>
    have : path ∉ sortedKeys (buildFilesMap packs) := fun hx => (hmem.mp hx) hlk
    rw [if_neg this]
    have h1 : ¬ ("pack.mcmeta" = path) := fun h => hm h.symm
    have h2 : ¬ ("pack.png" = path) := fun h => hp h.symm
    have h3 : ¬ ("README.md" = path) := fun h => hr h.symm
    cases hR : assocLookup (buildFilesMap packs) "README.md" with
    | none => simp [assocLookup, h1, h2, h3]
    | some w => simp [assocLookup, h1, h2]

/-! ## Claim theorems -/

/-- Claim C3: under the default last-wins policy, the final content at every
path is the content contributed by the last source (in input order) that
contained that path — both in the merge table, and in the emitted archive for
every path other than the three reserved generated names. -/
theorem last_wins_final_content (packs : List PackInput) (path : String) :
    assocLookup (buildFilesMap packs) path = lastContentOf packs path
    ∧ (path ≠ "pack.mcmeta" → path ≠ "pack.png" → path ≠ "README.md" →
        ∀ opts : MergeOptions,
          assocLookup (outputEntries packs opts) path
            = (lastContentOf packs path).map OutData.data) := by
  refine ⟨lookup_buildFilesMap packs path, ?_⟩
  intro hm hp hr opts
  rw [lookup_outputEntries packs opts path hm hp hr, lookup_buildFilesMap]

/-- Claim C3 witness: on two conflicting archive sources the merged content at
`a.txt` is the second source's, in the table and in the output. -/
theorem last_wins_final_content_witness :
    assocLookup (buildFilesMap conflictPacks) "a.txt" = lastContentOf conflictPacks "a.txt"
    ∧ assocLookup (outputEntries conflictPacks MergeOptions.default) "a.txt"
        = (lastContentOf conflictPacks "a.txt").map OutData.data :=
  ⟨(last_wins_final_content conflictPacks "a.txt").1,
    (last_wins_final_content conflictPacks "a.txt").2 (by decide) (by decide) (by decide)
      MergeOptions.default⟩

/-- Claim C5: the path sanitizer rejects every path beginning with a slash,
rejects every path with a `..` segment, rejects paths whose segment list
becomes empty, converts backslashes to forward slashes, discards empty
segments, and returns already-safe paths unchanged. -/
theorem sanitize_zip_entry_name_spec :
    (∀ s : List Char, s.head? = some '/' → sanitizeChars s = none)
    ∧ (∀ s : List Char, ['.', '.'] ∈ splitOnSlash (replaceBackslash s) → sanitizeChars s = none)
    ∧ (∀ s : List Char, (splitOnSlash (replaceBackslash s)).filter (fun t => !t.isEmpty) = [] →
        sanitizeChars s = none)
    ∧ sanitize_zip_entry_name "/etc/passwd" = none
    ∧ sanitize_zip_entry_name "../evil" = none
    ∧ sanitize_zip_entry_name "a\\b.txt" = some "a/b.txt"
    ∧ sanitize_zip_entry_name "a/b/c.txt" = some "a/b/c.txt"
    ∧ sanitize_zip_entry_name "a//b" = some "a/b" := by
  refine ⟨?_, ?_, ?_, by decide, by decide, by decide, by decide, by decide⟩
  · intro s h
    cases s with
    | nil => simp at h
    | cons c cs =>
      simp at h
      subst h
      simp [sanitizeChars, replaceBackslash]
  · intro s h
    by_cases hh : (replaceBackslash s).head? = some '/' ∨ (replaceBackslash s).head? = some '\\'
    · simp only [sanitizeChars]
      rw [if_pos hh]
    · have hmem : ['.', '.'] ∈ (splitOnSlash (replaceBackslash s)).filter (fun t => !t.isEmpty) :=
        List.mem_filter.mpr ⟨h, by decide⟩
      simp only [sanitizeChars]
      rw [if_neg hh, if_pos hmem]
  · intro s h
    by_cases hh : (replaceBackslash s).head? = some '/' ∨ (replaceBackslash s).head? = some '\\'
    · simp only [sanitizeChars]
      rw [if_pos hh]
    · have hnd : ['.', '.'] ∉ (splitOnSlash (replaceBackslash s)).filter (fun t => !t.isEmpty) := by
        rw [h]; simp
      simp only [sanitizeChars]
      rw [if_neg hh, if_neg hnd, if_pos (by rw [h]; rfl)]

/-- Claim C5 witness: the universal slash-rejection clause applied at the
concrete raw entry name `"/"`. -/
theorem sanitize_zip_entry_name_spec_witness : sanitizeChars ['/'] = none :=
  sanitize_zip_entry_name_spec.1 ['/'] rfl

/-- Claim C1 (code bug evidence): the overwrite policy is never consulted —
with two sources both containing `a.txt`, merging under `first-wins` and under
`skip-if-exists` produces exactly the same output as the default `last-wins`
merge, and the surviving content at `a.txt` is the second (last) source's
`[2]`, not the first source's `[1]`. -/
theorem policy_first_wins_ignored_bug :
    assocLookup (buildFilesMap conflictPacks) "a.txt" = some [2]
    ∧ merge_packs_to_bytes_with_options conflictPacks
        { MergeOptions.default with overwrite := OverwritePolicy.firstWins }
      = merge_packs_to_bytes_with_options conflictPacks MergeOptions.default
    ∧ merge_packs_to_bytes_with_options conflictPacks
        { MergeOptions.default with overwrite := OverwritePolicy.skipIfExists }
      = merge_packs_to_bytes_with_options conflictPacks MergeOptions.default :=
  ⟨by decide, rfl, rfl⟩

/-- Claim C2 (code bug evidence): with two sources both containing `a.txt`,
merging under `error-if-conflict` does not fail — it returns a merged result
in which the conflicting path holds the last source's content. -/
theorem error_if_conflict_never_errors_bug :
    merge_packs_to_bytes_with_options conflictPacks
        { MergeOptions.default with overwrite := OverwritePolicy.errorIfConflict }
      = Except.ok (outputEntries conflictPacks
          { MergeOptions.default with overwrite := OverwritePolicy.errorIfConflict })
    ∧ assocLookup (outputEntries conflictPacks
          { MergeOptions.default with overwrite := OverwritePolicy.errorIfConflict }) "a.txt"
      = some (OutData.data [2]) :=
  ⟨rfl, by decide⟩

/-- Claim C4 (code bug evidence): with the default options (atomic = true),
writing the merge result performs a single direct write to the destination
path — no temporary staging location and no rename appear in the trace. -/
theorem atomic_write_not_staged_bug :
    MergeOptions.default.atomic = true
    ∧ merge_packs_to_file_with_options [] "merged.zip" MergeOptions.default
      = Except.ok [FsAction.write "merged.zip" (outputEntries [] MergeOptions.default)] :=
  ⟨rfl, rfl⟩

/-- Claim C8 (code bug evidence): the generated icon does overwrite an
input-supplied `pack.png`, but when an input supplies `README.md` the output
contains no `README.md` entry at all — neither the input's copy (filtered
out) nor the generated provenance document (generation is skipped); the
generated document appears only when no input supplied one. -/
theorem generated_files_override_bug :
    assocLookup (outputEntries packsWithReadme MergeOptions.default) "README.md" = none
    ∧ assocLookup (outputEntries packsWithReadme MergeOptions.default) "pack.png"
      = some (OutData.data default_pack_png_bytes)
    ∧ default_pack_png_bytes ≠ [1]
    ∧ assocLookup (outputEntries [] MergeOptions.default) "README.md"
      = some (OutData.text (make_readme [])) :=
  ⟨by decide, by decide, by decide, by decide⟩

/-- Claim C10: merging without options is exactly merging with the default
options — the entry point is a definitional wrapper. -/
theorem merge_packs_to_bytes_default_equiv :
    ∀ packs : List PackInput,
      merge_packs_to_bytes packs = merge_packs_to_bytes_with_options packs MergeOptions.default :=
  fun _ => rfl

/-- Claim C6 counterexample: even with no inputs at all, the output entries
are `pack.mcmeta`, `pack.png`, `README.md` in that order, which is not
strictly ascending lexical order (`README.md` sorts before `pack.png`). -/
theorem output_order_not_globally_sorted :
    ¬ List.Pairwise (fun a b => strLe a b = true ∧ a ≠ b)
        (outputEntryNames [] MergeOptions.default) := by
  decide

/-- Claim C6 amended: the emitted archive is the non-reserved merge-table
entries in strictly ascending lexical path order, followed by the generated
`pack.mcmeta`, `pack.png`, and (when absent from the inputs) `README.md`;
the output is a pure function of the inputs and options, hence deterministic
across runs. -/
theorem output_order_sorted_sections (packs : List PackInput) (opts : MergeOptions) :
    List.Pairwise (fun a b => strLe a b = true ∧ a ≠ b) (sortedKeys (buildFilesMap packs))
    ∧ outputEntryNames packs opts
      = sortedKeys (buildFilesMap packs) ++ ["pack.mcmeta", "pack.png"]
        ++ (match assocLookup (buildFilesMap packs) "README.md" with
            | none => ["README.md"]
            | some _ => []) := by
  constructor
  · exact strict_pairwise_sortStrings (nonSpecialKeys (buildFilesMap packs))
      ((nodup_mapKeys_buildFilesMap packs).filter _)
  · unfold outputEntryNames outputEntries
    cases hR : assocLookup (buildFilesMap packs) "README.md" <;>
      simp [hR, List.map_append, List.map_map, Function.comp_def]

/-- Claim C7: the synthesized supported-format bounds match the specified
values on the given scenarios, and `one-to-highest` collapses to `[1]`
whenever the maximum declared format is at most 1. -/
theorem supported_formats_bounds_spec :
    supported_formats .oneToHighest [3, 7] (final_pack_fmt none [3, 7]) = [1, 7]
    ∧ supported_formats .lowestToHighest [3, 7] (final_pack_fmt none [3, 7]) = [3, 7]
    ∧ supported_formats .oneToHighest [5] (final_pack_fmt none [5]) = [1, 5]
    ∧ supported_formats .lowestToHighest [5] (final_pack_fmt none [5]) = [5]
    ∧ ∀ (found : List Nat) (fmt m : Nat), found.max? = some m → m ≤ 1 →
        supported_formats .oneToHighest found fmt = [1] := by
  refine ⟨by decide, by decide, by decide, by decide, ?_⟩
  intro found fmt m hmax hle
  cases found with
  | nil => simp [List.max?] at hmax
  | cons a as => simp [supported_formats, List.isEmpty, hmax, hle]

/-- Claim C7 witness: the universal clause at the single declared format 1. -/
theorem supported_formats_bounds_spec_witness :
    supported_formats .oneToHighest [1] 1 = [1] :=
  supported_formats_bounds_spec.2.2.2.2 [1] 1 1 rfl (by decide)

/-- Claim C9 counterexample: an archive whose only entry is a well-formed
descriptor nested one segment deep under an overlay directory yields no peek
finding, even though the descriptor itself parses. -/
theorem peek_nested_descriptor_not_found :
    peek_pack_format_from_zipbytes [("myoverlay/pack.mcmeta", some sampleMcmeta)] = none
    ∧ extract_pack_format_from_mcmeta sampleMcmeta = some (7, none) :=
  ⟨rfl, rfl⟩

/-- Claim C9 amended: the archive peek finds the metadata descriptor only as
an entry whose exact full name is `pack.mcmeta` (top level); when no such
entry exists it reports no finding regardless of nested copies; for a
directory source a root file of that name is used. -/
theorem peek_descriptor_top_level_only :
    (∀ entries : List (String × Option Json),
        (∀ e ∈ entries, e.1 ≠ "pack.mcmeta") → peek_pack_format_from_zipbytes entries = none)
    ∧ (∀ (j : Json) (rest : List (String × Option Json)) (pf : Nat) (mf : Option Nat),
        extract_pack_format_from_mcmeta j = some (pf, mf) →
        peek_pack_format_from_zipbytes (("pack.mcmeta", some j) :: rest)
          = some (pf, mf, extract_overlays_from_mcmeta j))
    ∧ (∀ (j : Json) (rest : List (String × Option Json)) (pf : Nat) (mf : Option Nat),
        extract_pack_format_from_mcmeta j = some (pf, mf) →
        peek_pack_format_from_dir (("pack.mcmeta", some j) :: rest)
          = some (pf, mf, extract_overlays_from_mcmeta j)) := by
  refine ⟨?_, ?_, ?_⟩
  · intro entries h
    have hl : assocLookup entries "pack.mcmeta" = none :=
      (assocLookup_eq_none_iff entries "pack.mcmeta").mpr h
    simp [peek_pack_format_from_zipbytes, hl]
  · intro j rest pf mf h
    simp [peek_pack_format_from_zipbytes, assocLookup, h]
  · intro j rest pf mf h
    simp [peek_pack_format_from_dir, assocLookup, h]

/-- Claim C9 witness: the top-level clause at the concrete sample descriptor. -/
theorem peek_descriptor_top_level_only_witness :
    peek_pack_format_from_zipbytes [("pack.mcmeta", some sampleMcmeta)]
      = some (7, none, extract_overlays_from_mcmeta sampleMcmeta) :=
  peek_descriptor_top_level_only.2.1 sampleMcmeta [] 7 none rfl

end ResourceMerger
